import Mathlib

/-!
Shallow embedding of the liquidation auction engine of the `afp-agents`
keeper bot, together with proofs of the specified properties.

The embedding covers:
* `liquidation/model.py` — `Position` with its notional / `dmae` helpers,
  `Step` and `TransactionStep`;
* `liquidation/bid.py` — the mark-price and percent-of-MAE bid strategies;
* `liquidation/service.py` — the `LiquidatingAccountContext` state machine
  (`populate`, `start_liquidation`, `bid_liquidation`, `_check_bids`,
  `wait_time_for`) and the `LiquidationService` account discovery
  (`group_by_collateral`, `fetch_account_details`, `liquidatable_accounts`).

Python `Decimal` values are modelled as rationals (`ℚ`); Python `int` as `Int`
(prices can in principle be any integer) or `Nat` where the source only ever
holds non-negative values (decimal exponents, identifiers).  A Python
`RuntimeError` / arithmetic exception is modelled with `Except`: `Decimal`
division by zero raises in Python, so every division site of the source is
guarded by an explicit error in the embedding.  Opaque chain-level values
(addresses, position ids, hashes) are modelled as `Nat`.
-/

deriving instance DecidableEq for Except

/-! ## Data model (`liquidation/model.py`) -/

/-- Embeds `model.Step` -/
inductive Step where
  | REQUEST_LIQUIDATION
  | BID_AUCTION
deriving DecidableEq, Repr

/-- Embeds `model.TransactionStep`: a lifecycle step paired with its tx hash. -/
structure TransactionStep where
  step : Step
  tx_hash : Nat
deriving DecidableEq, Repr

/-- Embeds `model.Position`: one open position of the liquidating account. -/
structure Position where
  position_id : Nat
  quantity : Int
  mark_price : Int
  tick_size : Nat
  point_value : ℚ
deriving DecidableEq, Repr

/-- Embeds `Position.notional_at_mark`:
`Decimal(mark_price * abs(quantity) * point_value) / Decimal(10**tick_size)`. -/
def Position.notional_at_mark (p : Position) : ℚ :=
  ((p.mark_price * |p.quantity| : Int) : ℚ) * p.point_value / ((10 : ℚ) ^ p.tick_size)

/-- Embeds `Position.notional_at_price`: the same with `price` substituted for the mark. -/
def Position.notional_at_price (p : Position) (price : Int) : ℚ :=
  ((price * |p.quantity| : Int) : ℚ) * p.point_value / ((10 : ℚ) ^ p.tick_size)

/-- Embeds `Position.dmae`: MAE removed from the account when the position trades at
`bid_price` (mark minus price notional for longs, price minus mark for shorts). -/
def Position.dmae (p : Position) (bid_price : Int) : ℚ :=
  if p.quantity > 0 then p.notional_at_mark - p.notional_at_price bid_price
  else p.notional_at_price bid_price - p.notional_at_mark

/-! ## Bid data (`afp.bindings.BidData`, as used by `liquidation/bid.py`) -/

/-- Embeds `afp.bindings.Side` -/
inductive Side where
  | BID
  | ASK
deriving DecidableEq, Repr

/-- Embeds `afp.bindings.BidData` as constructed by the strategies. -/
structure BidData where
  product_id : Nat
  quantity : Int
  price : Int
  side : Side
deriving DecidableEq, Repr

/-- Errors raised by `FullLiquidationPercentMAEStrategy.construct_bids`:
the explicit `RuntimeError` for a zero mark price on a valid position, and the
`decimal` exception raised when a division's divisor is zero. -/
inductive BidError where
  | zeroMarkPrice (position_id : Nat)
  | divisionByZero
deriving DecidableEq, Repr

/-! ## Mark-price strategy (`bid.FullLiquidationMarkPriceStrategy`) -/

namespace FullLiquidationMarkPriceStrategy

/-- Embeds `FullLiquidationMarkPriceStrategy.construct_bids`: one bid per valid
position at its mark price, side `BID` for positive quantity, else `ASK`. -/
def construct_bids (position_validator : Nat → Bool) (_mae_initial : Int)
    (positions : List Position) : Bool × List BidData :=
  (true, positions.filterMap fun (position : Position) =>
    if position_validator position.position_id then
      some { product_id := position.position_id,
             quantity := |position.quantity|,
             price := position.mark_price,
             side := if position.quantity > 0 then Side.BID else Side.ASK }
    else none)

end FullLiquidationMarkPriceStrategy

/-! ## Percent-of-MAE strategy (`bid.FullLiquidationPercentMAEStrategy`) -/

namespace FullLiquidationPercentMAEStrategy

/-- First loop of `construct_bids`: accumulate the long and short mark-notional
sums over the valid positions, raising on the first valid position whose mark
price is zero.  Returns `(sum_notional_long, sum_notional_short)`. -/
def sumNotionals (position_validator : Nat → Bool) :
    List Position → Except BidError (ℚ × ℚ)
  | [] => .ok (0, 0)
  | position :: rest =>
    if position_validator position.position_id then
      if position.mark_price = 0 then
        .error (.zeroMarkPrice position.position_id)
      else
        match sumNotionals position_validator rest with
        | .error e => .error e
        | .ok (sum_long, sum_short) =>
          if position.quantity > 0 then
            .ok (position.notional_at_mark + sum_long, sum_short)
          else
            .ok (sum_long, position.notional_at_mark + sum_short)
    else sumNotionals position_validator rest

/-- The discount-percentage computation of `construct_bids`
(`percent_dmark`, with the `> 1` clamp).  Python's `Decimal` raises on a zero
divisor, which the embedding surfaces as `BidError.divisionByZero`.  Returns
`(percent_dmark_long, percent_dmark_short)`. -/
def discounts (percent_mae : ℚ) (mae_initial : Int) (sum_long sum_short : ℚ) :
    Except BidError (ℚ × ℚ) :=
  if sum_long + sum_short = 0 then .error .divisionByZero
  else
    let percent_dmark := (mae_initial : ℚ) * percent_mae / (sum_long + sum_short)
    if percent_dmark > 1 then
      if sum_short = 0 then .error .divisionByZero
      else .ok (1, ((mae_initial : ℚ) * percent_mae - sum_long) / sum_short)
    else .ok (percent_dmark, percent_dmark)

/-- Second loop of `construct_bids`: one bid per valid position, longs priced at
`floor(mark_price * (1 - percent_dmark_long))` with side `BID`, shorts at
`ceil(mark_price * (1 + percent_dmark_short))` with side `ASK`. -/
def mkBids (position_validator : Nat → Bool)
    (percent_dmark_long percent_dmark_short : ℚ) :
    List Position → List BidData
  | [] => []
  | position :: rest =>
    if position_validator position.position_id then
      { product_id := position.position_id,
        quantity := |position.quantity|,
        price :=
          if position.quantity > 0 then
            ⌊(position.mark_price : ℚ) * (1 - percent_dmark_long)⌋
          else
            ⌈(position.mark_price : ℚ) * (1 + percent_dmark_short)⌉,
        side := if position.quantity > 0 then Side.BID else Side.ASK } ::
        mkBids position_validator percent_dmark_long percent_dmark_short rest
    else mkBids position_validator percent_dmark_long percent_dmark_short rest

/-- Embeds `FullLiquidationPercentMAEStrategy.construct_bids`. -/
def construct_bids (percent_mae : ℚ) (position_validator : Nat → Bool)
    (mae_initial : Int) (positions : List Position) :
    Except BidError (Bool × List BidData) :=
  match sumNotionals position_validator positions with
  | .error e => .error e
  | .ok (sum_long, sum_short) =>
    match discounts percent_mae mae_initial sum_long sum_short with
    | .error e => .error e
    | .ok (percent_dmark_long, percent_dmark_short) =>
      .ok (true, mkBids position_validator percent_dmark_long percent_dmark_short positions)

end FullLiquidationPercentMAEStrategy

namespace FullLiquidationPercentMAEStrategy

/-- The long-side mark-notional sum accumulated by the first loop of
`construct_bids` (over positions with `quantity > 0`). -/
def sumLong : List Position → ℚ
  | [] => 0
  | p :: rest => (if p.quantity > 0 then p.notional_at_mark else 0) + sumLong rest

/-- The short-side mark-notional sum accumulated by the first loop of
`construct_bids` (over positions with `quantity ≤ 0`). -/
def sumShort : List Position → ℚ
  | [] => 0
  | p :: rest => (if p.quantity > 0 then 0 else p.notional_at_mark) + sumShort rest

/-- Embeds `percent_dmark` of `construct_bids`:
`Decimal(mae_initial) * percent_mae / (sum_notional_long + sum_notional_short)`. -/
def percentDmark (percent_mae : ℚ) (mae_initial : Int) (positions : List Position) : ℚ :=
  (mae_initial : ℚ) * percent_mae / (sumLong positions + sumShort positions)

/-- Embeds `percent_dmark_long` as selected by `construct_bids`. -/
def dmarkLong (percent_mae : ℚ) (mae_initial : Int) (positions : List Position) : ℚ :=
  if percentDmark percent_mae mae_initial positions > 1 then 1
  else percentDmark percent_mae mae_initial positions

/-- Embeds `percent_dmark_short` as selected by `construct_bids`. -/
def dmarkShort (percent_mae : ℚ) (mae_initial : Int) (positions : List Position) : ℚ :=
  if percentDmark percent_mae mae_initial positions > 1 then
    ((mae_initial : ℚ) * percent_mae - sumLong positions) / sumShort positions
  else percentDmark percent_mae mae_initial positions

/-- The bid emitted for a single (valid) position by the second loop of
`construct_bids`, given the two discount percentages. -/
def bidOf (percent_dmark_long percent_dmark_short : ℚ) (p : Position) : BidData :=
  { product_id := p.position_id,
    quantity := |p.quantity|,
    price :=
      if p.quantity > 0 then ⌊(p.mark_price : ℚ) * (1 - percent_dmark_long)⌋
      else ⌈(p.mark_price : ℚ) * (1 + percent_dmark_short)⌉,
    side := if p.quantity > 0 then Side.BID else Side.ASK }

theorem sumNotionals_ok (v : Nat → Bool) (positions : List Position)
    (hvalid : ∀ p ∈ positions, v p.position_id = true)
    (hmark : ∀ p ∈ positions, p.mark_price ≠ 0) :
    sumNotionals v positions = .ok (sumLong positions, sumShort positions) := by
  induction positions with
  | nil => simp [sumNotionals, sumLong, sumShort]
  | cons p rest ih =>
    have hv := hvalid p (List.mem_cons_self p rest)
    have hm := hmark p (List.mem_cons_self p rest)
    have ih' := ih (fun q hq => hvalid q (List.mem_cons_of_mem p hq))
      (fun q hq => hmark q (List.mem_cons_of_mem p hq))
    by_cases hq : p.quantity > 0 <;>
      simp [sumNotionals, sumLong, sumShort, hv, hm, ih', hq, add_comm]

theorem mkBids_eq_map (v : Nat → Bool) (dl ds : ℚ) (positions : List Position)
    (hvalid : ∀ p ∈ positions, v p.position_id = true) :
    mkBids v dl ds positions = positions.map (bidOf dl ds) := by
  induction positions with
  | nil => simp [mkBids]
  | cons p rest ih =>
    have hv := hvalid p (List.mem_cons_self p rest)
    have ih' := ih (fun q hq => hvalid q (List.mem_cons_of_mem p hq))
    simp [mkBids, bidOf, hv, ih']

theorem discounts_ok (percent_mae : ℚ) (mae_initial : Int) (positions : List Position)
    (hsum : sumLong positions + sumShort positions ≠ 0)
    (hshort : percentDmark percent_mae mae_initial positions > 1 → sumShort positions ≠ 0) :
    discounts percent_mae mae_initial (sumLong positions) (sumShort positions) =
      .ok (dmarkLong percent_mae mae_initial positions,
           dmarkShort percent_mae mae_initial positions) := by
  by_cases hgt : percentDmark percent_mae mae_initial positions > 1
  · have hss := hshort hgt
    rw [percentDmark] at hgt
    simp [discounts, hsum, hss, hgt, dmarkLong, dmarkShort, percentDmark]
  · rw [percentDmark] at hgt
    simp [discounts, hsum, hgt, dmarkLong, dmarkShort, percentDmark]

theorem construct_bids_eq_map
    (percent_mae : ℚ) (v : Nat → Bool) (mae_initial : Int) (positions : List Position)
    (hvalid : ∀ p ∈ positions, v p.position_id = true)
    (hmark : ∀ p ∈ positions, p.mark_price ≠ 0)
    (hsum : sumLong positions + sumShort positions ≠ 0)
    (hshort : percentDmark percent_mae mae_initial positions > 1 → sumShort positions ≠ 0) :
    construct_bids percent_mae v mae_initial positions =
      .ok (true, positions.map (bidOf (dmarkLong percent_mae mae_initial positions)
        (dmarkShort percent_mae mae_initial positions))) := by
  simp only [construct_bids, sumNotionals_ok v positions hvalid hmark,
    discounts_ok percent_mae mae_initial positions hsum hshort,
    mkBids_eq_map v (dmarkLong percent_mae mae_initial positions)
      (dmarkShort percent_mae mae_initial positions) positions hvalid]

/-- C1: for positions that all pass the validator and have nonzero mark price
(and with the divisors the code needs nonzero), `construct_bids` of the
percent-of-equity strategy prices every long at
`floor(mark_price * (1 - percent_dmark_long))` with side `BID` and every short
at `ceil(mark_price * (1 + percent_dmark_short))` with side `ASK`, where both
discounts equal `percent_dmark = mae_initial * percent_mae / (sumLong + sumShort)`
when `percent_dmark ≤ 1`, and otherwise the long discount is exactly `1` (long
bid price `0`) and the short discount is
`(mae_initial * percent_mae - sumLong) / sumShort`. -/
theorem C1_percent_mae_bid_prices
    (percent_mae : ℚ) (v : Nat → Bool) (mae_initial : Int) (positions : List Position)
    (hvalid : ∀ p ∈ positions, v p.position_id = true)
    (hmark : ∀ p ∈ positions, p.mark_price ≠ 0)
    (hsum : sumLong positions + sumShort positions ≠ 0)
    (hshort : percentDmark percent_mae mae_initial positions > 1 → sumShort positions ≠ 0) :
    construct_bids percent_mae v mae_initial positions =
      .ok (true, positions.map (bidOf (dmarkLong percent_mae mae_initial positions)
        (dmarkShort percent_mae mae_initial positions))) ∧
    (¬ percentDmark percent_mae mae_initial positions > 1 →
      dmarkLong percent_mae mae_initial positions =
          percentDmark percent_mae mae_initial positions ∧
        dmarkShort percent_mae mae_initial positions =
          percentDmark percent_mae mae_initial positions) ∧
    (percentDmark percent_mae mae_initial positions > 1 →
      dmarkLong percent_mae mae_initial positions = 1 ∧
        dmarkShort percent_mae mae_initial positions =
          ((mae_initial : ℚ) * percent_mae - sumLong positions) / sumShort positions ∧
        ∀ p ∈ positions, p.quantity > 0 →
          (bidOf (dmarkLong percent_mae mae_initial positions)
            (dmarkShort percent_mae mae_initial positions) p).price = 0) := by
  refine ⟨?_, ?_, ?_⟩
  · exact construct_bids_eq_map percent_mae v mae_initial positions hvalid hmark hsum hshort
  · intro hle
    simp [dmarkLong, dmarkShort, hle]
  · intro hgt
    refine ⟨by simp [dmarkLong, hgt], by simp [dmarkShort, hgt], ?_⟩
    intro p _ hq
    simp [bidOf, hq, dmarkLong, hgt]

/-- Witness for C1 at the spec's example: positions
`[{qty:+10, mark:100, tick:0, pointValue:1}, {qty:-5, mark:200, tick:0, pointValue:1}]`
with `mae_initial = 1000` and `percent_mae = 0.1` produce a long bid at price 95
(side `BID`) and a short bid at price 210 (side `ASK`). -/
theorem C1_percent_mae_bid_prices_witness :
    construct_bids (1/10) (fun _ => true) 1000
      [⟨0, 10, 100, 0, 1⟩, ⟨1, -5, 200, 0, 1⟩] =
    .ok (true, [⟨0, 10, 95, Side.BID⟩, ⟨1, 5, 210, Side.ASK⟩]) := by
  have hsum : sumLong [(⟨0, 10, 100, 0, 1⟩ : Position), ⟨1, -5, 200, 0, 1⟩] +
      sumShort [(⟨0, 10, 100, 0, 1⟩ : Position), ⟨1, -5, 200, 0, 1⟩] = 2000 := by
    norm_num [sumLong, sumShort, Position.notional_at_mark]
  have hpd : percentDmark (1/10) 1000 [(⟨0, 10, 100, 0, 1⟩ : Position), ⟨1, -5, 200, 0, 1⟩]
      = 1/20 := by
    rw [percentDmark, hsum]; norm_num
  have h := C1_percent_mae_bid_prices (1/10) (fun _ => true) 1000
    [⟨0, 10, 100, 0, 1⟩, ⟨1, -5, 200, 0, 1⟩]
    (by intro p _; rfl)
    (by intro p hp; fin_cases hp <;> norm_num)
    (by rw [hsum]; norm_num)
    (by rw [hpd]; norm_num)
  have hdl : dmarkLong (1/10) 1000 [(⟨0, 10, 100, 0, 1⟩ : Position), ⟨1, -5, 200, 0, 1⟩]
      = 1/20 := by rw [dmarkLong, hpd]; norm_num
  have hds : dmarkShort (1/10) 1000 [(⟨0, 10, 100, 0, 1⟩ : Position), ⟨1, -5, 200, 0, 1⟩]
      = 1/20 := by rw [dmarkShort, hpd]; norm_num
  rw [h.1, hdl, hds]
  norm_num [bidOf]

theorem discounts_err_short (percent_mae : ℚ) (mae_initial : Int) (sl ss : ℚ)
    (hsum : sl + ss ≠ 0) (hgt : (mae_initial : ℚ) * percent_mae / (sl + ss) > 1)
    (hss : ss = 0) :
    discounts percent_mae mae_initial sl ss = .error .divisionByZero := by
  subst hss
  simp only [add_zero] at hsum hgt
  simp [discounts, hsum, hgt]

theorem sumNotionals_eq_filter (v : Nat → Bool) (positions : List Position)
    (hmark : ∀ p ∈ positions, v p.position_id = true → p.mark_price ≠ 0) :
    sumNotionals v positions =
      .ok (sumLong (positions.filter fun p => v p.position_id),
           sumShort (positions.filter fun p => v p.position_id)) := by
  induction positions with
  | nil => simp [sumNotionals, sumLong, sumShort]
  | cons p rest ih =>
    have ih' := ih (fun q hq => hmark q (List.mem_cons_of_mem p hq))
    by_cases hv : v p.position_id = true
    · have hm := hmark p (List.mem_cons_self p rest) hv
      by_cases hq : p.quantity > 0 <;>
        simp [sumNotionals, List.filter_cons, hv, hm, hq, ih', sumLong, sumShort, add_comm]
    · simp [sumNotionals, List.filter_cons, hv, ih']

theorem sumNotionals_zero_mark (v : Nat → Bool) (positions : List Position)
    (h : ∃ p ∈ positions, v p.position_id = true ∧ p.mark_price = 0) :
    ∃ pid, sumNotionals v positions = .error (.zeroMarkPrice pid) := by
  induction positions with
  | nil => simp at h
  | cons p rest ih =>
    by_cases hv : v p.position_id = true
    · by_cases hm : p.mark_price = 0
      · exact ⟨p.position_id, by simp [sumNotionals, hv, hm]⟩
      · obtain ⟨q, hq, hqv, hqm⟩ := h
        rcases List.mem_cons.mp hq with rfl | hq'
        · exact absurd hqm hm
        · obtain ⟨pid, hpid⟩ := ih ⟨q, hq', hqv, hqm⟩
          exact ⟨pid, by simp [sumNotionals, hv, hm, hpid]⟩
    · obtain ⟨q, hq, hqv, hqm⟩ := h
      rcases List.mem_cons.mp hq with rfl | hq'
      · exact absurd hqv hv
      · obtain ⟨pid, hpid⟩ := ih ⟨q, hq', hqv, hqm⟩
        exact ⟨pid, by simp [sumNotionals, hv, hpid]⟩

/-- C8: the percent-of-equity strategy raises a fatal error whenever some
position passing the validator has zero mark price; when the divisor it needs
is zero (the total valid notional in the unclamped case, the short-side valid
notional in the clamped case) the division by zero surfaces as a fatal error
rather than bids; and in all remaining cases it returns `ok = true`. -/
theorem C8_percent_mae_fatal_errors (percent_mae : ℚ) (v : Nat → Bool)
    (mae_initial : Int) (positions : List Position) :
    ((∃ p ∈ positions, v p.position_id = true ∧ p.mark_price = 0) →
      ∃ pid, construct_bids percent_mae v mae_initial positions =
        .error (.zeroMarkPrice pid)) ∧
    ((∀ p ∈ positions, v p.position_id = true → p.mark_price ≠ 0) →
      (sumLong (positions.filter fun p => v p.position_id) +
          sumShort (positions.filter fun p => v p.position_id) = 0 →
        construct_bids percent_mae v mae_initial positions = .error .divisionByZero) ∧
      (sumLong (positions.filter fun p => v p.position_id) +
          sumShort (positions.filter fun p => v p.position_id) ≠ 0 →
        percentDmark percent_mae mae_initial (positions.filter fun p => v p.position_id) > 1 →
        sumShort (positions.filter fun p => v p.position_id) = 0 →
        construct_bids percent_mae v mae_initial positions = .error .divisionByZero) ∧
      (sumLong (positions.filter fun p => v p.position_id) +
          sumShort (positions.filter fun p => v p.position_id) ≠ 0 →
        (percentDmark percent_mae mae_initial (positions.filter fun p => v p.position_id) > 1 →
          sumShort (positions.filter fun p => v p.position_id) ≠ 0) →
        ∃ bids, construct_bids percent_mae v mae_initial positions = .ok (true, bids))) := by
  constructor
  · intro h
    obtain ⟨pid, hpid⟩ := sumNotionals_zero_mark v positions h
    exact ⟨pid, by simp [construct_bids, hpid]⟩
  · intro hmark
    have hsums := sumNotionals_eq_filter v positions hmark
    refine ⟨?_, ?_, ?_⟩
    · intro hzero
      simp [construct_bids, hsums, discounts, hzero]
    · intro hsum hgt hss
      rw [percentDmark] at hgt
      simp only [construct_bids, hsums,
        discounts_err_short percent_mae mae_initial _ _ hsum hgt hss]
    · intro hsum hshort
      simp only [construct_bids, hsums,
        discounts_ok percent_mae mae_initial (positions.filter fun p => v p.position_id)
          hsum hshort]
      exact ⟨_, rfl⟩

/-- Witness for C8: a single valid position with zero mark price makes
`construct_bids` fail with the zero-mark-price fatal error. -/
theorem C8_percent_mae_fatal_errors_witness :
    ∃ pid, construct_bids (1/10) (fun _ => true) 100 [⟨7, 1, 0, 0, 1⟩] =
      .error (.zeroMarkPrice pid) :=
  (C8_percent_mae_fatal_errors (1/10) (fun _ => true) 100 [⟨7, 1, 0, 0, 1⟩]).1
    ⟨⟨7, 1, 0, 0, 1⟩, List.mem_cons_self _ _, rfl, rfl⟩

end FullLiquidationPercentMAEStrategy

/-- C10: a position with quantity exactly `0` that passes the validator is
classified as a short by both strategies: the mark-price strategy emits a bid
with side `ASK`, quantity `0`, at the mark price; the percent-of-equity
strategy adds its (zero) notional to the short-side sum and emits a bid with
side `ASK`, quantity `0`, priced at `ceil(mark_price * (1 + percent_dmark_short))`. -/
theorem C10_zero_quantity_position_is_short
    (v : Nat → Bool) (dl ds : ℚ) (mae_initial : Int)
    (p : Position) (rest : List Position)
    (hq : p.quantity = 0) (hv : v p.position_id = true) :
    FullLiquidationMarkPriceStrategy.construct_bids v mae_initial (p :: rest) =
      (true, ⟨p.position_id, 0, p.mark_price, Side.ASK⟩ ::
        (FullLiquidationMarkPriceStrategy.construct_bids v mae_initial rest).2) ∧
    FullLiquidationPercentMAEStrategy.mkBids v dl ds (p :: rest) =
      ⟨p.position_id, 0, ⌈(p.mark_price : ℚ) * (1 + ds)⌉, Side.ASK⟩ ::
        FullLiquidationPercentMAEStrategy.mkBids v dl ds rest ∧
    p.notional_at_mark = 0 ∧
    (p.mark_price ≠ 0 →
      FullLiquidationPercentMAEStrategy.sumNotionals v (p :: rest) =
        (FullLiquidationPercentMAEStrategy.sumNotionals v rest).map
          (fun s => (s.1, p.notional_at_mark + s.2))) := by
  have hq' : ¬ p.quantity > 0 := by omega
  refine ⟨?_, ?_, ?_, ?_⟩
  · simp [FullLiquidationMarkPriceStrategy.construct_bids, hv, hq', hq]
  · simp [FullLiquidationPercentMAEStrategy.mkBids, hv, hq', hq]
  · simp [Position.notional_at_mark, hq]
  · intro hm
    cases hrest : FullLiquidationPercentMAEStrategy.sumNotionals v rest with
    | error e => simp [FullLiquidationPercentMAEStrategy.sumNotionals, hv, hm, hrest,
        Except.map]
    | ok s => simp [FullLiquidationPercentMAEStrategy.sumNotionals, hv, hm, hrest, hq',
        Except.map]

/-- Witness for C10: a zero-quantity valid position with mark price 100 yields
an `ASK` bid of quantity 0 in the mark-price strategy and an `ASK` bid of
quantity 0 priced at `ceil(100 * (1 + 1/20)) = 105` under a short discount of
`1/20`, its zero notional counted on the short side. -/
theorem C10_zero_quantity_position_is_short_witness :
    FullLiquidationMarkPriceStrategy.construct_bids (fun _ => true) 1000
      [(⟨3, 0, 100, 0, 1⟩ : Position)] =
      (true, [⟨3, 0, 100, Side.ASK⟩]) ∧
    FullLiquidationPercentMAEStrategy.mkBids (fun _ => true) (1/20) (1/20)
      [(⟨3, 0, 100, 0, 1⟩ : Position)] = [⟨3, 0, 105, Side.ASK⟩] ∧
    FullLiquidationPercentMAEStrategy.sumNotionals (fun _ => true)
      [(⟨3, 0, 100, 0, 1⟩ : Position)] = .ok (0, 0) := by
  have h := C10_zero_quantity_position_is_short (fun _ => true) (1/20) (1/20) 1000
    (⟨3, 0, 100, 0, 1⟩ : Position) [] rfl rfl
  obtain ⟨h1, h2, h3, h4⟩ := h
  refine ⟨?_, ?_, ?_⟩
  · rw [h1]
    norm_num [FullLiquidationMarkPriceStrategy.construct_bids]
  · rw [h2]
    norm_num [FullLiquidationPercentMAEStrategy.mkBids]
  · rw [h4 (by norm_num)]
    norm_num [FullLiquidationPercentMAEStrategy.sumNotionals, h3, Except.map]

namespace FullLiquidationPercentMAEStrategy

/-- Aggregate notional-weighted equity reduction of a bid list against the
positions it was constructed from: the sum over corresponding pairs of
`notionalAtMark - notionalAtPrice(bidPrice)` for longs and
`notionalAtPrice(bidPrice) - notionalAtMark` for shorts. -/
def aggregateDmae (positions : List Position) (bids : List BidData) : ℚ :=
  ((positions.zip bids).map fun pb => pb.1.dmae pb.2.price).sum

/-- One integer price unit of notional per position: the slack the floor/ceil
rounding can add on top of the exact target. -/
def tickSlack : List Position → ℚ
  | [] => 0
  | p :: rest =>
      ((|p.quantity| : Int) : ℚ) * p.point_value / (10 : ℚ) ^ p.tick_size + tickSlack rest

theorem zip_map_self {α β : Type} (f : α → β) (l : List α) :
    l.zip (l.map f) = l.map fun a => (a, f a) := by
  induction l with
  | nil => rfl
  | cons a l ih => simp [ih]

theorem notional_mark_eq (p : Position) :
    p.notional_at_mark = (p.mark_price : ℚ) *
      (((|p.quantity| : Int) : ℚ) * p.point_value / (10 : ℚ) ^ p.tick_size) := by
  rw [Position.notional_at_mark]
  push_cast
  ring

theorem notional_price_eq (p : Position) (price : Int) :
    p.notional_at_price price = (price : ℚ) *
      (((|p.quantity| : Int) : ℚ) * p.point_value / (10 : ℚ) ^ p.tick_size) := by
  rw [Position.notional_at_price]
  push_cast
  ring

theorem floor_discount_bounds (dl : ℚ) (m : Int) (c : ℚ) (hc : 0 ≤ c) :
    dl * ((m : ℚ) * c) ≤ ((m : ℚ) - (⌊(m : ℚ) * (1 - dl)⌋ : Int)) * c ∧
    ((m : ℚ) - (⌊(m : ℚ) * (1 - dl)⌋ : Int)) * c ≤ dl * ((m : ℚ) * c) + c := by
  have hfl : ((⌊(m : ℚ) * (1 - dl)⌋ : Int) : ℚ) ≤ (m : ℚ) * (1 - dl) := Int.floor_le _
  have hfl2 : (m : ℚ) * (1 - dl) < (⌊(m : ℚ) * (1 - dl)⌋ : Int) + 1 := Int.lt_floor_add_one _
  have hexp : (m : ℚ) * (1 - dl) = (m : ℚ) - dl * (m : ℚ) := by ring
  constructor
  · have key : dl * (m : ℚ) ≤ (m : ℚ) - (⌊(m : ℚ) * (1 - dl)⌋ : Int) := by
      linarith [hfl, hexp]
    calc dl * ((m : ℚ) * c) = dl * (m : ℚ) * c := by ring
      _ ≤ ((m : ℚ) - (⌊(m : ℚ) * (1 - dl)⌋ : Int)) * c := mul_le_mul_of_nonneg_right key hc
  · have key : (m : ℚ) - (⌊(m : ℚ) * (1 - dl)⌋ : Int) ≤ dl * (m : ℚ) + 1 := by
      linarith [hfl2, hexp]
    calc ((m : ℚ) - (⌊(m : ℚ) * (1 - dl)⌋ : Int)) * c ≤ (dl * (m : ℚ) + 1) * c :=
        mul_le_mul_of_nonneg_right key hc
      _ = dl * ((m : ℚ) * c) + c := by ring

theorem ceil_discount_bounds (ds : ℚ) (m : Int) (c : ℚ) (hc : 0 ≤ c) :
    ds * ((m : ℚ) * c) ≤ ((⌈(m : ℚ) * (1 + ds)⌉ : Int) - (m : ℚ)) * c ∧
    ((⌈(m : ℚ) * (1 + ds)⌉ : Int) - (m : ℚ)) * c ≤ ds * ((m : ℚ) * c) + c := by
  have hcl : (m : ℚ) * (1 + ds) ≤ ((⌈(m : ℚ) * (1 + ds)⌉ : Int) : ℚ) := Int.le_ceil _
  have hcl2 : ((⌈(m : ℚ) * (1 + ds)⌉ : Int) : ℚ) < (m : ℚ) * (1 + ds) + 1 :=
    Int.ceil_lt_add_one _
  have hexp : (m : ℚ) * (1 + ds) = (m : ℚ) + ds * (m : ℚ) := by ring
  constructor
  · have key : ds * (m : ℚ) ≤ (⌈(m : ℚ) * (1 + ds)⌉ : Int) - (m : ℚ) := by
      linarith [hcl, hexp]
    calc ds * ((m : ℚ) * c) = ds * (m : ℚ) * c := by ring
      _ ≤ ((⌈(m : ℚ) * (1 + ds)⌉ : Int) - (m : ℚ)) * c := mul_le_mul_of_nonneg_right key hc
  · have key : (⌈(m : ℚ) * (1 + ds)⌉ : Int) - (m : ℚ) ≤ ds * (m : ℚ) + 1 := by
      linarith [hcl2, hexp]
    calc ((⌈(m : ℚ) * (1 + ds)⌉ : Int) - (m : ℚ)) * c ≤ (ds * (m : ℚ) + 1) * c :=
        mul_le_mul_of_nonneg_right key hc
      _ = ds * ((m : ℚ) * c) + c := by ring

theorem dmae_bid_bounds (dl ds : ℚ) (p : Position) (hpv : 0 ≤ p.point_value) :
    (if p.quantity > 0 then dl else ds) * p.notional_at_mark ≤
      p.dmae ((bidOf dl ds p).price) ∧
    p.dmae ((bidOf dl ds p).price) ≤
      (if p.quantity > 0 then dl else ds) * p.notional_at_mark +
        ((|p.quantity| : Int) : ℚ) * p.point_value / (10 : ℚ) ^ p.tick_size := by
  have hc : (0 : ℚ) ≤ ((|p.quantity| : Int) : ℚ) * p.point_value / (10 : ℚ) ^ p.tick_size := by
    apply div_nonneg (mul_nonneg ?_ hpv) (by positivity)
    exact_mod_cast abs_nonneg p.quantity
  by_cases hq : p.quantity > 0
  · have hdmae : p.dmae ((bidOf dl ds p).price) =
        ((p.mark_price : ℚ) - (⌊(p.mark_price : ℚ) * (1 - dl)⌋ : Int)) *
          (((|p.quantity| : Int) : ℚ) * p.point_value / (10 : ℚ) ^ p.tick_size) := by
      simp only [Position.dmae, bidOf, if_pos hq, notional_mark_eq, notional_price_eq]
      ring
    obtain ⟨h1, h2⟩ := floor_discount_bounds dl p.mark_price
      (((|p.quantity| : Int) : ℚ) * p.point_value / (10 : ℚ) ^ p.tick_size) hc
    rw [hdmae, if_pos hq, notional_mark_eq]
    exact ⟨h1, h2⟩
  · have hdmae : p.dmae ((bidOf dl ds p).price) =
        ((⌈(p.mark_price : ℚ) * (1 + ds)⌉ : Int) - (p.mark_price : ℚ)) *
          (((|p.quantity| : Int) : ℚ) * p.point_value / (10 : ℚ) ^ p.tick_size) := by
      simp only [Position.dmae, bidOf, if_neg hq, notional_mark_eq, notional_price_eq]
      ring
    obtain ⟨h1, h2⟩ := ceil_discount_bounds ds p.mark_price
      (((|p.quantity| : Int) : ℚ) * p.point_value / (10 : ℚ) ^ p.tick_size) hc
    rw [hdmae, if_neg hq, notional_mark_eq]
    exact ⟨h1, h2⟩

theorem sum_dmae_bounds (dl ds : ℚ) (positions : List Position)
    (hpv : ∀ p ∈ positions, 0 ≤ p.point_value) :
    dl * sumLong positions + ds * sumShort positions ≤
      (positions.map fun p => p.dmae ((bidOf dl ds p).price)).sum ∧
    (positions.map fun p => p.dmae ((bidOf dl ds p).price)).sum ≤
      dl * sumLong positions + ds * sumShort positions + tickSlack positions := by
  induction positions with
  | nil => simp [sumLong, sumShort, tickSlack]
  | cons p rest ih =>
    obtain ⟨ih1, ih2⟩ := ih fun q hq => hpv q (List.mem_cons_of_mem p hq)
    obtain ⟨hb1, hb2⟩ := dmae_bid_bounds dl ds p (hpv p (List.mem_cons_self p rest))
    simp only [List.map_cons, List.sum_cons, sumLong, sumShort, tickSlack, mul_add]
    by_cases hq : p.quantity > 0
    · rw [if_pos hq] at hb1 hb2
      simp only [if_pos hq, mul_zero, add_zero, zero_add]
      constructor <;> linarith
    · rw [if_neg hq] at hb1 hb2
      simp only [if_neg hq, mul_zero, add_zero, zero_add]
      constructor <;> linarith

theorem discount_target (percent_mae : ℚ) (mae_initial : Int) (positions : List Position)
    (hsum : sumLong positions + sumShort positions ≠ 0)
    (hshort : percentDmark percent_mae mae_initial positions > 1 → sumShort positions ≠ 0) :
    dmarkLong percent_mae mae_initial positions * sumLong positions +
      dmarkShort percent_mae mae_initial positions * sumShort positions =
      (mae_initial : ℚ) * percent_mae := by
  by_cases hgt : percentDmark percent_mae mae_initial positions > 1
  · have hss := hshort hgt
    rw [dmarkLong, dmarkShort, if_pos hgt, if_pos hgt, one_mul,
      div_mul_cancel₀ _ hss]
    ring
  · rw [dmarkLong, dmarkShort, if_neg hgt, if_neg hgt, percentDmark]
    calc (mae_initial : ℚ) * percent_mae / (sumLong positions + sumShort positions) *
          sumLong positions +
        (mae_initial : ℚ) * percent_mae / (sumLong positions + sumShort positions) *
          sumShort positions =
        (mae_initial : ℚ) * percent_mae / (sumLong positions + sumShort positions) *
          (sumLong positions + sumShort positions) := by ring
      _ = (mae_initial : ℚ) * percent_mae := div_mul_cancel₀ _ hsum

/-- C2: for a non-empty list of valid positions with uniform nonzero mark price
(and non-negative point values, with the divisors the code needs nonzero), the
bids of the percent-of-equity strategy have an aggregate notional-weighted
equity reduction lying between `mae_initial * percent_mae` and
`mae_initial * percent_mae` plus one integer price unit of notional per
position: the floor/ceil rounding never falls short of the intended
reduction. -/
theorem C2_percent_mae_aggregate_reduction
    (percent_mae : ℚ) (v : Nat → Bool) (mae_initial : Int)
    (positions : List Position) (m : Int)
    (_hne : positions ≠ [])
    (hvalid : ∀ p ∈ positions, v p.position_id = true)
    (humark : ∀ p ∈ positions, p.mark_price = m)
    (hm : m ≠ 0)
    (hpv : ∀ p ∈ positions, 0 ≤ p.point_value)
    (hsum : sumLong positions + sumShort positions ≠ 0)
    (hshort : percentDmark percent_mae mae_initial positions > 1 → sumShort positions ≠ 0) :
    ∃ bids, construct_bids percent_mae v mae_initial positions = .ok (true, bids) ∧
      (mae_initial : ℚ) * percent_mae ≤ aggregateDmae positions bids ∧
      aggregateDmae positions bids ≤ (mae_initial : ℚ) * percent_mae + tickSlack positions := by
  have hmark : ∀ p ∈ positions, p.mark_price ≠ 0 := fun p hp => humark p hp ▸ hm
  refine ⟨_, construct_bids_eq_map percent_mae v mae_initial positions hvalid hmark
    hsum hshort, ?_⟩
  have hagg : aggregateDmae positions
      (positions.map (bidOf (dmarkLong percent_mae mae_initial positions)
        (dmarkShort percent_mae mae_initial positions))) =
      (positions.map fun p => p.dmae ((bidOf (dmarkLong percent_mae mae_initial positions)
        (dmarkShort percent_mae mae_initial positions) p).price)).sum := by
    rw [aggregateDmae, zip_map_self, List.map_map]
    rfl
  obtain ⟨hb1, hb2⟩ := sum_dmae_bounds (dmarkLong percent_mae mae_initial positions)
    (dmarkShort percent_mae mae_initial positions) positions hpv
  have htarget := discount_target percent_mae mae_initial positions hsum hshort
  rw [hagg]
  constructor <;> linarith

/-- Witness for C2: two valid positions `{qty:+10, mark:100}` and
`{qty:-5, mark:100}` with `mae_initial = 1000`, `percent_mae = 0.1`: the
aggregate reduction of the produced bids lies within one price unit per
position of the target 100. -/
theorem C2_percent_mae_aggregate_reduction_witness :
    ∃ bids, construct_bids (1/10) (fun _ => true) 1000
        [⟨0, 10, 100, 0, 1⟩, ⟨1, -5, 100, 0, 1⟩] = .ok (true, bids) ∧
      ((1000 : Int) : ℚ) * (1/10) ≤
        aggregateDmae [⟨0, 10, 100, 0, 1⟩, ⟨1, -5, 100, 0, 1⟩] bids ∧
      aggregateDmae [⟨0, 10, 100, 0, 1⟩, ⟨1, -5, 100, 0, 1⟩] bids ≤
        ((1000 : Int) : ℚ) * (1/10) +
          tickSlack [⟨0, 10, 100, 0, 1⟩, ⟨1, -5, 100, 0, 1⟩] := by
  have hsum : sumLong [(⟨0, 10, 100, 0, 1⟩ : Position), ⟨1, -5, 100, 0, 1⟩] +
      sumShort [(⟨0, 10, 100, 0, 1⟩ : Position), ⟨1, -5, 100, 0, 1⟩] = 1500 := by
    norm_num [sumLong, sumShort, Position.notional_at_mark]
  exact C2_percent_mae_aggregate_reduction (1/10) (fun _ => true) 1000
    [⟨0, 10, 100, 0, 1⟩, ⟨1, -5, 100, 0, 1⟩] 100
    (by simp)
    (by intro p _; rfl)
    (by intro p hp; fin_cases hp <;> rfl)
    (by norm_num)
    (by intro p hp; fin_cases hp <;> norm_num)
    (by rw [hsum]; norm_num)
    (by rw [percentDmark, hsum]; norm_num)

end FullLiquidationPercentMAEStrategy

/-! ## Liquidating account context (`liquidation/service.py`) -/

/-- Embeds `afp.bindings.Settlement` as built by `_check_bids`. -/
structure Settlement where
  position_id : Nat
  quantity : Int
  price : Int
deriving DecidableEq, Repr

/-- Embeds `afp.bindings.AuctionData`. -/
structure AuctionData where
  start_block : Int
  mmu_at_initiation : Int
  mae_at_initiation : Int
  mmu_now : Int
  mae_now : Int
deriving DecidableEq, Repr

/-- The `RuntimeError`s raised in `service.py`, together with the `Decimal`
division-by-zero exception of `wait_time_for`. -/
inductive ServiceError where
  | maeIncreased
  | mmuIncreased
  | auctionDataMissing
  | divisionByZero
deriving DecidableEq, Repr

/-- The chain/collaborator state a `LiquidatingAccountContext` reads through
its bindings: the joined position data fetched by `populate`, the collateral
decimals, the clearing contract's liquidation flag and auction snapshot, the
margin account's `mae`/`mmu`, the batch-trade simulation, the latest block
number, and the hash the next transaction submission returns. -/
structure Chain where
  positions : List Position
  decimals : Nat
  is_liquidating : Bool
  auction_data : AuctionData
  mae : Int
  mmu : Int
  simulate : List Settlement → Int × Int
  current_block : Int
  next_tx : Nat

/-- The mutable state of a `LiquidatingAccountContext`. -/
structure LiquidatingAccountContext where
  is_liquidating : Bool
  positions : List Position
  auction_data : Option AuctionData
  collateral_decimals : Nat
  auction_duration : Int
  transaction_steps : List TransactionStep
deriving DecidableEq, Repr

/-- Embeds `LiquidatingAccountContext.populate`: appends the freshly fetched positions
to `self.positions` (the source loop `self.positions.append(...)` never clears
the list), refreshes `is_liquidating` from chain, loads `auction_data` only
when liquidating, and stores the collateral decimals. -/
def LiquidatingAccountContext.populate (ch : Chain) (ctx : LiquidatingAccountContext) :
    LiquidatingAccountContext :=
  { ctx with
    positions := ctx.positions ++ ch.positions,
    is_liquidating := ch.is_liquidating,
    auction_data := if ch.is_liquidating then some ch.auction_data else ctx.auction_data,
    collateral_decimals := ch.decimals }

/-- Embeds `LiquidatingAccountContext.is_transaction_submitted`. -/
def LiquidatingAccountContext.is_transaction_submitted
    (ctx : LiquidatingAccountContext) (step : Step) : Bool :=
  ctx.transaction_steps.any fun submitted => submitted.step == step

/-- The settlement list `_check_bids` builds from the bids: quantity negated
for side `BID`, kept for side `ASK`. -/
def settlementsOf (bids : List BidData) : List Settlement :=
  bids.map fun bid =>
    { position_id := bid.product_id,
      quantity := if bid.side = Side.BID then -bid.quantity else bid.quantity,
      price := bid.price }

/-- Embeds `dmae = (mae_before - mae_after) / 10**collateral_decimals` as computed by
`_check_bids`. -/
def LiquidatingAccountContext.dmae_of (ch : Chain) (ctx : LiquidatingAccountContext)
    (bids : List BidData) : ℚ :=
  ((ch.mae - (ch.simulate (settlementsOf bids)).1 : Int) : ℚ) /
    (10 : ℚ) ^ ctx.collateral_decimals

/-- Embeds `dmmu = (mmu_before - mmu_after) / 10**collateral_decimals` as computed by
`_check_bids`. -/
def LiquidatingAccountContext.dmmu_of (ch : Chain) (ctx : LiquidatingAccountContext)
    (bids : List BidData) : ℚ :=
  ((ch.mmu - (ch.simulate (settlementsOf bids)).2 : Int) : ℚ) /
    (10 : ℚ) ^ ctx.collateral_decimals

/-- Embeds `LiquidatingAccountContext._check_bids`: simulate the batch trade built
from the bids, compute the two deltas, and raise when either is negative. -/
def LiquidatingAccountContext.check_bids (ch : Chain) (ctx : LiquidatingAccountContext)
    (bids : List BidData) : Except ServiceError (ℚ × ℚ) :=
  if ctx.dmae_of ch bids < 0 then .error .maeIncreased
  else if ctx.dmmu_of ch bids < 0 then .error .mmuIncreased
  else .ok (ctx.dmae_of ch bids, ctx.dmmu_of ch bids)

/-- Embeds `LiquidatingAccountContext.start_liquidation`.  The result is the Python
return value (or the propagated exception), the context state after the call,
and the list of transaction hashes submitted during the call. -/
def LiquidatingAccountContext.start_liquidation (ch : Chain)
    (bids_of : List Position → List BidData) (ctx : LiquidatingAccountContext) :
    Except ServiceError (Bool × ℚ × ℚ) × LiquidatingAccountContext × List Nat :=
  match ctx.check_bids ch (bids_of ctx.positions) with
  | .error e => (.error e, ctx, [])
  | .ok (dmae, dmmu) =>
    if ctx.is_liquidating then (.ok (false, dmae, dmmu), ctx, [])
    else if ctx.is_transaction_submitted Step.REQUEST_LIQUIDATION then
      (.ok (false, dmae, dmmu), ctx, [])
    else
      (.ok (true, dmae, dmmu),
        { ctx with
          transaction_steps :=
            ctx.transaction_steps ++ [⟨Step.REQUEST_LIQUIDATION, ch.next_tx⟩],
          is_liquidating := true,
          auction_data := some ch.auction_data },
        [ch.next_tx])

/-- Embeds `LiquidatingAccountContext.bid_liquidation`, with the same result
convention as `start_liquidation`. -/
def LiquidatingAccountContext.bid_liquidation (ch : Chain)
    (bids_of : List Position → List BidData) (ctx : LiquidatingAccountContext) :
    Except ServiceError Bool × LiquidatingAccountContext × List Nat :=
  if ¬ ctx.is_liquidating then (.ok false, ctx, [])
  else if ctx.is_transaction_submitted Step.BID_AUCTION then (.ok false, ctx, [])
  else
    let bids := bids_of ctx.positions
    if bids.length = 0 then (.ok false, ctx, [])
    else match ctx.check_bids ch bids with
      | .error e => (.error e, ctx, [])
      | .ok _ =>
        (.ok true,
          { ctx with transaction_steps :=
              ctx.transaction_steps ++ [⟨Step.BID_AUCTION, ch.next_tx⟩] },
          [ch.next_tx])

/-- Embeds `LiquidatingAccountContext.wait_time_for`.  Python's `Decimal` raises on a
zero divisor `dmmu * mae_at_initiation`, modelled as an explicit error. -/
def LiquidatingAccountContext.wait_time_for (ch : Chain)
    (ctx : LiquidatingAccountContext) (dmae dmmu : ℚ) : Except ServiceError Int :=
  match ctx.auction_data with
  | none => .error .auctionDataMissing
  | some auction =>
    if ch.current_block - auction.start_block > ctx.auction_duration then .ok 0
    else
      if dmmu * (auction.mae_at_initiation : ℚ) = 0 then .error .divisionByZero
      else
        let t := dmae * (ctx.auction_duration : ℚ) * (auction.mmu_at_initiation : ℚ) /
          (dmmu * (auction.mae_at_initiation : ℚ))
        let blocks_left := ⌈t⌉ - (ch.current_block - auction.start_block)
        if blocks_left < 0 then .ok 0 else .ok blocks_left

/-- C3: `_check_bids` raises exactly when `dmae < 0` or `dmmu < 0` (in that
order of checks), otherwise returns the pair `(dmae, dmmu)` with
`dmae = (maeBefore - maeAfter)/10^decimals` and
`dmmu = (mmuBefore - mmuAfter)/10^decimals`; and whenever `_check_bids` raises,
`bid_liquidation` submits no bid transaction and leaves the context (in
particular its `transaction_steps`) unchanged. -/
theorem C3_check_bids_rejects_negative_deltas (ch : Chain)
    (ctx : LiquidatingAccountContext) (bids : List BidData)
    (bids_of : List Position → List BidData) :
    ((∃ e, ctx.check_bids ch bids = .error e) ↔
      (ctx.dmae_of ch bids < 0 ∨ ctx.dmmu_of ch bids < 0)) ∧
    (¬ (ctx.dmae_of ch bids < 0 ∨ ctx.dmmu_of ch bids < 0) →
      ctx.check_bids ch bids = .ok (ctx.dmae_of ch bids, ctx.dmmu_of ch bids)) ∧
    ((∃ e, ctx.check_bids ch (bids_of ctx.positions) = .error e) →
      (ctx.bid_liquidation ch bids_of).2.1 = ctx ∧
        (ctx.bid_liquidation ch bids_of).2.2 = []) := by
  refine ⟨⟨?_, ?_⟩, ?_, ?_⟩
  · intro ⟨e, he⟩
    by_contra hcon
    push_neg at hcon
    rw [LiquidatingAccountContext.check_bids, if_neg (not_lt.mpr hcon.1),
      if_neg (not_lt.mpr hcon.2)] at he
    exact Except.noConfusion he
  · intro h
    rcases h with h | h
    · exact ⟨.maeIncreased, by rw [LiquidatingAccountContext.check_bids, if_pos h]⟩
    · by_cases h1 : ctx.dmae_of ch bids < 0
      · exact ⟨.maeIncreased, by rw [LiquidatingAccountContext.check_bids, if_pos h1]⟩
      · exact ⟨.mmuIncreased,
          by rw [LiquidatingAccountContext.check_bids, if_neg h1, if_pos h]⟩
  · intro h
    push_neg at h
    rw [LiquidatingAccountContext.check_bids, if_neg (not_lt.mpr h.1),
      if_neg (not_lt.mpr h.2)]
  · intro ⟨e, he⟩
    rw [LiquidatingAccountContext.bid_liquidation]
    by_cases hl : ctx.is_liquidating
    · by_cases hs : ctx.is_transaction_submitted Step.BID_AUCTION
      · simp [hl, hs]
      · by_cases hb : (bids_of ctx.positions).length = 0
        · simp [hl, hs, hb]
        · simp [hl, hs, hb, he]
    · simp [hl]

/-- Witness for C3: a chain whose simulation raises MAE (post-trade MAE above
pre-trade MAE) makes `_check_bids` fail and `bid_liquidation` submit nothing. -/
theorem C3_check_bids_rejects_negative_deltas_witness :
    (∃ e, LiquidatingAccountContext.check_bids
      ⟨[], 0, true, ⟨0, 0, 0, 0, 0⟩, 0, 0, fun _ => (1, 0), 0, 42⟩
      ⟨true, [], none, 0, 10, []⟩ [⟨0, 1, 1, Side.BID⟩] = .error e) ∧
    (LiquidatingAccountContext.bid_liquidation
      ⟨[], 0, true, ⟨0, 0, 0, 0, 0⟩, 0, 0, fun _ => (1, 0), 0, 42⟩
      (fun _ => [⟨0, 1, 1, Side.BID⟩])
      ⟨true, [], none, 0, 10, []⟩).2.1 = ⟨true, [], none, 0, 10, []⟩ := by
  have h := C3_check_bids_rejects_negative_deltas
    ⟨[], 0, true, ⟨0, 0, 0, 0, 0⟩, 0, 0, fun _ => (1, 0), 0, 42⟩
    ⟨true, [], none, 0, 10, []⟩ [⟨0, 1, 1, Side.BID⟩] (fun _ => [⟨0, 1, 1, Side.BID⟩])
  have hneg : LiquidatingAccountContext.dmae_of
      ⟨[], 0, true, ⟨0, 0, 0, 0, 0⟩, 0, 0, fun _ => (1, 0), 0, 42⟩
      ⟨true, [], none, 0, 10, []⟩ [⟨0, 1, 1, Side.BID⟩] < 0 := by
    norm_num [LiquidatingAccountContext.dmae_of, settlementsOf]
  have hex := h.1.mpr (Or.inl hneg)
  exact ⟨hex, (h.2.2 hex).1⟩

theorem start_liquidation_txs_len_le_one (ch : Chain)
    (bids_of : List Position → List BidData) (ctx : LiquidatingAccountContext) :
    (ctx.start_liquidation ch bids_of).2.2.length ≤ 1 := by
  rw [LiquidatingAccountContext.start_liquidation]
  cases hck : ctx.check_bids ch (bids_of ctx.positions) with
  | error e => simp
  | ok d =>
    by_cases hl : ctx.is_liquidating <;>
      by_cases hs : ctx.is_transaction_submitted Step.REQUEST_LIQUIDATION <;>
        simp [hl, hs]

theorem start_liquidation_no_tx_when_liquidating (ch : Chain)
    (bids_of : List Position → List BidData) (ctx : LiquidatingAccountContext)
    (hl : ctx.is_liquidating = true) :
    (ctx.start_liquidation ch bids_of).2.2 = [] ∧
      (ctx.start_liquidation ch bids_of).2.1 = ctx := by
  rw [LiquidatingAccountContext.start_liquidation]
  cases hck : ctx.check_bids ch (bids_of ctx.positions) with
  | error e => simp
  | ok d => simp [hl]

/-- C4: if the context is already liquidating, or a `REQUEST_LIQUIDATION` step
is already recorded this run, `start_liquidation` returns
`(false, dmae, dmmu)` without submitting a transaction or changing the
context; consequently two consecutive `start_liquidation` calls (with any
chain states and strategies, and no `populate()` in between) submit at most
one liquidation-request transaction in total. -/
theorem C4_start_liquidation_no_double_request (ch ch2 : Chain)
    (bids_of bids_of2 : List Position → List BidData)
    (ctx : LiquidatingAccountContext) (dmae dmmu : ℚ)
    (hck : ctx.check_bids ch (bids_of ctx.positions) = .ok (dmae, dmmu)) :
    ((ctx.is_liquidating = true ∨
        ctx.is_transaction_submitted Step.REQUEST_LIQUIDATION = true) →
      ctx.start_liquidation ch bids_of = (.ok (false, dmae, dmmu), ctx, [])) ∧
    (ctx.start_liquidation ch bids_of).2.2.length +
      (((ctx.start_liquidation ch bids_of).2.1).start_liquidation ch2 bids_of2).2.2.length
      ≤ 1 := by
  constructor
  · intro hguard
    rw [LiquidatingAccountContext.start_liquidation, hck]
    rcases hguard with hl | hs
    · simp [hl]
    · by_cases hl : ctx.is_liquidating
      · simp [hl]
      · simp [hl, hs]
  · rw [LiquidatingAccountContext.start_liquidation, hck]
    by_cases hl : ctx.is_liquidating
    · simp only [hl, if_true]
      have := start_liquidation_txs_len_le_one ch2 bids_of2 ctx
      simpa using this
    · by_cases hs : ctx.is_transaction_submitted Step.REQUEST_LIQUIDATION
      · simp only [hl, if_false, hs, if_true, Bool.false_eq_true]
        have := start_liquidation_txs_len_le_one ch2 bids_of2 ctx
        simpa using this
      · simp only [hl, hs, Bool.false_eq_true, if_false]
        have hnew := start_liquidation_no_tx_when_liquidating ch2 bids_of2
          { ctx with
            transaction_steps :=
              ctx.transaction_steps ++ [⟨Step.REQUEST_LIQUIDATION, ch.next_tx⟩],
            is_liquidating := true,
            auction_data := some ch.auction_data } rfl
        simp [hnew.1]

/-- Witness for C4: a context that is already liquidating (with a successful
`_check_bids` simulation) returns `(false, 0, 0)` from `start_liquidation`
with no transaction, and two consecutive calls submit at most one request. -/
theorem C4_start_liquidation_no_double_request_witness :
    LiquidatingAccountContext.start_liquidation
        ⟨[], 0, true, ⟨0, 0, 0, 0, 0⟩, 0, 0, fun _ => (0, 0), 0, 42⟩ (fun _ => [])
        ⟨true, [], none, 0, 10, []⟩ =
      (.ok (false, 0, 0), ⟨true, [], none, 0, 10, []⟩, []) := by
  have hck : LiquidatingAccountContext.check_bids
      ⟨[], 0, true, ⟨0, 0, 0, 0, 0⟩, 0, 0, fun _ => (0, 0), 0, 42⟩
      ⟨true, [], none, 0, 10, []⟩ [] = .ok (0, 0) := by
    norm_num [LiquidatingAccountContext.check_bids, LiquidatingAccountContext.dmae_of,
      LiquidatingAccountContext.dmmu_of, settlementsOf]
  exact (C4_start_liquidation_no_double_request
    ⟨[], 0, true, ⟨0, 0, 0, 0, 0⟩, 0, 0, fun _ => (0, 0), 0, 42⟩
    ⟨[], 0, true, ⟨0, 0, 0, 0, 0⟩, 0, 0, fun _ => (0, 0), 0, 42⟩
    (fun _ => []) (fun _ => []) ⟨true, [], none, 0, 10, []⟩ 0 0 hck).1 (Or.inl rfl)

/-- C5: `wait_time_for` raises a fatal error when `AuctionData` is absent;
returns 0 when the elapsed blocks exceed `auction_duration`; otherwise (with
the nonzero divisor `Decimal` needs) returns
`max(0, ceil(dmae * auctionDuration * mmuAtInitiation / (dmmu * maeAtInitiation))
- blocksElapsed)`; and every non-error result is a non-negative integer. -/
theorem C5_wait_time_for_formula (ch : Chain) (ctx : LiquidatingAccountContext)
    (dmae dmmu : ℚ) :
    (ctx.auction_data = none →
      ctx.wait_time_for ch dmae dmmu = .error .auctionDataMissing) ∧
    (∀ auction, ctx.auction_data = some auction →
      ch.current_block - auction.start_block > ctx.auction_duration →
      ctx.wait_time_for ch dmae dmmu = .ok 0) ∧
    (∀ auction, ctx.auction_data = some auction →
      ¬ ch.current_block - auction.start_block > ctx.auction_duration →
      dmmu * (auction.mae_at_initiation : ℚ) ≠ 0 →
      ctx.wait_time_for ch dmae dmmu = .ok (max 0
        (⌈dmae * (ctx.auction_duration : ℚ) * (auction.mmu_at_initiation : ℚ) /
            (dmmu * (auction.mae_at_initiation : ℚ))⌉ -
          (ch.current_block - auction.start_block)))) ∧
    (∀ r, ctx.wait_time_for ch dmae dmmu = .ok r → 0 ≤ r) := by
  refine ⟨?_, ?_, ?_, ?_⟩
  · intro hnone
    rw [LiquidatingAccountContext.wait_time_for, hnone]
  · intro auction hsome hpast
    rw [LiquidatingAccountContext.wait_time_for, hsome]
    simp [hpast]
  · intro auction hsome hpast hdiv
    rw [LiquidatingAccountContext.wait_time_for, hsome]
    simp only [if_neg hpast, if_neg hdiv]
    by_cases hneg : (⌈dmae * (ctx.auction_duration : ℚ) * (auction.mmu_at_initiation : ℚ) /
        (dmmu * (auction.mae_at_initiation : ℚ))⌉ -
          (ch.current_block - auction.start_block)) < 0
    · rw [if_pos hneg]
      congr 1
      omega
    · rw [if_neg hneg]
      congr 1
      omega
  · intro r hr
    rw [LiquidatingAccountContext.wait_time_for] at hr
    cases hsome : ctx.auction_data with
    | none => rw [hsome] at hr; exact Except.noConfusion hr
    | some auction =>
      rw [hsome] at hr
      dsimp only at hr
      split_ifs at hr with h1 h2 h3
      all_goals
        first
          | exact Except.noConfusion hr
          | (injection hr with h
             omega)

/-- Witness for C5: with an auction that started at block 0, duration 10,
current block 2, `mmu0 = mae0 = 1` and `dmae = dmmu = 1`, the wait time is
`max 0 (ceil(10) - 2) = 8`; and with no auction data the call fails. -/
theorem C5_wait_time_for_formula_witness :
    LiquidatingAccountContext.wait_time_for
      ⟨[], 0, true, ⟨0, 1, 1, 1, 1⟩, 0, 0, fun _ => (0, 0), 2, 0⟩
      ⟨true, [], some ⟨0, 1, 1, 1, 1⟩, 0, 10, []⟩ 1 1 = .ok 8 ∧
    LiquidatingAccountContext.wait_time_for
      ⟨[], 0, true, ⟨0, 1, 1, 1, 1⟩, 0, 0, fun _ => (0, 0), 2, 0⟩
      ⟨true, [], none, 0, 10, []⟩ 1 1 = .error .auctionDataMissing := by
  constructor
  · have h := (C5_wait_time_for_formula
      ⟨[], 0, true, ⟨0, 1, 1, 1, 1⟩, 0, 0, fun _ => (0, 0), 2, 0⟩
      ⟨true, [], some ⟨0, 1, 1, 1, 1⟩, 0, 10, []⟩ 1 1).2.2.1
      ⟨0, 1, 1, 1, 1⟩ rfl (by norm_num) (by norm_num)
    rw [h]
    norm_num
  · exact (C5_wait_time_for_formula
      ⟨[], 0, true, ⟨0, 1, 1, 1, 1⟩, 0, 0, fun _ => (0, 0), 2, 0⟩
      ⟨true, [], none, 0, 10, []⟩ 1 1).1 rfl

/-- C6 (code bug): `populate()` is not idempotent.  The source appends the
freshly fetched positions to `self.positions` without clearing the list, so a
second `populate()` on the same chain state accumulates duplicates instead of
replacing the previously loaded positions: on a chain holding one position, the
first call yields one position but the second yields two, and the two context
states differ. -/
theorem C6_populate_accumulates_positions :
    (LiquidatingAccountContext.populate
      ⟨[⟨0, 1, 100, 0, 1⟩], 6, false, ⟨0, 0, 0, 0, 0⟩, 0, 0, fun _ => (0, 0), 0, 0⟩
      ⟨false, [], none, 0, 10, []⟩).positions = [⟨0, 1, 100, 0, 1⟩] ∧
    (LiquidatingAccountContext.populate
      ⟨[⟨0, 1, 100, 0, 1⟩], 6, false, ⟨0, 0, 0, 0, 0⟩, 0, 0, fun _ => (0, 0), 0, 0⟩
      (LiquidatingAccountContext.populate
        ⟨[⟨0, 1, 100, 0, 1⟩], 6, false, ⟨0, 0, 0, 0, 0⟩, 0, 0, fun _ => (0, 0), 0, 0⟩
        ⟨false, [], none, 0, 10, []⟩)).positions =
      [⟨0, 1, 100, 0, 1⟩, ⟨0, 1, 100, 0, 1⟩] ∧
    LiquidatingAccountContext.populate
      ⟨[⟨0, 1, 100, 0, 1⟩], 6, false, ⟨0, 0, 0, 0, 0⟩, 0, 0, fun _ => (0, 0), 0, 0⟩
      (LiquidatingAccountContext.populate
        ⟨[⟨0, 1, 100, 0, 1⟩], 6, false, ⟨0, 0, 0, 0, 0⟩, 0, 0, fun _ => (0, 0), 0, 0⟩
        ⟨false, [], none, 0, 10, []⟩) ≠
    LiquidatingAccountContext.populate
      ⟨[⟨0, 1, 100, 0, 1⟩], 6, false, ⟨0, 0, 0, 0, 0⟩, 0, 0, fun _ => (0, 0), 0, 0⟩
      ⟨false, [], none, 0, 10, []⟩ := by
  refine ⟨rfl, rfl, ?_⟩
  intro h
  have := congrArg (fun c => c.positions.length) h
  simp [LiquidatingAccountContext.populate] at this

/-- C7: `bid_liquidation` returns `false` without submitting a transaction
whenever the context is not liquidating, or a `BID_AUCTION` step was already
recorded this run, or the strategy's bid list for the current positions is
empty; and it returns `true` only with non-empty bids that passed
`_check_bids`, having submitted exactly the bid transaction and recorded the
`BID_AUCTION` step. -/
theorem C7_bid_liquidation_guards (ch : Chain)
    (bids_of : List Position → List BidData) (ctx : LiquidatingAccountContext) :
    (ctx.is_liquidating = false →
      ctx.bid_liquidation ch bids_of = (.ok false, ctx, [])) ∧
    (ctx.is_transaction_submitted Step.BID_AUCTION = true →
      ctx.bid_liquidation ch bids_of = (.ok false, ctx, [])) ∧
    (bids_of ctx.positions = [] →
      ctx.bid_liquidation ch bids_of = (.ok false, ctx, [])) ∧
    ((ctx.bid_liquidation ch bids_of).1 = .ok true →
      bids_of ctx.positions ≠ [] ∧
      (∃ d, ctx.check_bids ch (bids_of ctx.positions) = .ok d) ∧
      (ctx.bid_liquidation ch bids_of).2.2 = [ch.next_tx] ∧
      ((ctx.bid_liquidation ch bids_of).2.1).transaction_steps =
        ctx.transaction_steps ++ [⟨Step.BID_AUCTION, ch.next_tx⟩]) := by
  refine ⟨?_, ?_, ?_, ?_⟩
  · intro hl
    rw [LiquidatingAccountContext.bid_liquidation]
    simp [hl]
  · intro hs
    rw [LiquidatingAccountContext.bid_liquidation]
    by_cases hl : ctx.is_liquidating <;> simp [hl, hs]
  · intro hb
    rw [LiquidatingAccountContext.bid_liquidation]
    by_cases hl : ctx.is_liquidating <;>
      by_cases hs : ctx.is_transaction_submitted Step.BID_AUCTION <;>
        simp [hl, hs, hb]
  · intro htrue
    rw [LiquidatingAccountContext.bid_liquidation] at htrue
    by_cases hl : ctx.is_liquidating
    · by_cases hs : ctx.is_transaction_submitted Step.BID_AUCTION
      · simp [hl, hs] at htrue
      · by_cases hb : (bids_of ctx.positions).length = 0
        · simp [hl, hs, hb] at htrue
        · cases hck : ctx.check_bids ch (bids_of ctx.positions) with
          | error e => simp [hl, hs, hb, hck] at htrue
          | ok d =>
            refine ⟨by simpa using hb, ⟨d, hck ▸ rfl⟩, ?_, ?_⟩ <;>
              · rw [LiquidatingAccountContext.bid_liquidation]
                simp [hl, hs, hb, hck]
    · simp [hl] at htrue

/-- Witness for C7: a context that is not liquidating returns `false` from
`bid_liquidation` with no transaction submitted. -/
theorem C7_bid_liquidation_guards_witness :
    LiquidatingAccountContext.bid_liquidation
      ⟨[], 0, false, ⟨0, 0, 0, 0, 0⟩, 0, 0, fun _ => (0, 0), 0, 9⟩
      (fun _ => [⟨0, 1, 1, Side.BID⟩]) ⟨false, [], none, 0, 10, []⟩ =
    (.ok false, ⟨false, [], none, 0, 10, []⟩, []) :=
  (C7_bid_liquidation_guards
    ⟨[], 0, false, ⟨0, 0, 0, 0, 0⟩, 0, 0, fun _ => (0, 0), 0, 9⟩
    (fun _ => [⟨0, 1, 1, Side.BID⟩]) ⟨false, [], none, 0, 10, []⟩).1 rfl

/-! ## Liquidation service discovery (`LiquidationService`) -/

/-- Embeds `subquery.model.Account` as consumed by discovery. -/
structure Account where
  account_id : Nat
  margin_account : Nat
  collateral_asset : Nat
deriving DecidableEq, Repr

/-- Embeds `afp.bindings.UserMarginAccountData` as consumed by discovery. -/
structure UserMarginAccountData where
  mae : Int
  mmu : Int
deriving DecidableEq, Repr

/-- Embeds `MAX_ACCOUNT_FETCH = 50`. -/
def MAX_ACCOUNT_FETCH : Nat := 50

/-- One step of the `group_by_collateral` loop: append the account to its
collateral's entry in the insertion-ordered dict, creating the entry if absent
(Python dicts preserve insertion order). -/
def addToGroup (groups : List (Nat × List Account)) (acct : Account) :
    List (Nat × List Account) :=
  if groups.any fun g => g.1 == acct.collateral_asset then
    groups.map fun g =>
      if g.1 = acct.collateral_asset then (g.1, g.2 ++ [acct]) else g
  else groups ++ [(acct.collateral_asset, [acct])]

/-- Embeds `service.group_by_collateral`. -/
def group_by_collateral (accounts : List Account) : List (Nat × List Account) :=
  accounts.foldl addToGroup []

/-- One step of collecting the dict keys in insertion order. -/
def insertKey (keys : List Nat) (c : Nat) : List Nat :=
  if c ∈ keys then keys else keys ++ [c]

/-- The collateral assets in order of first occurrence: the key order of the
dict built by `group_by_collateral`. -/
def collateralKeys (accounts : List Account) : List Nat :=
  (accounts.map fun a => a.collateral_asset).foldl insertKey []

/-- The batching loop of `fetch_account_details`
(`for i in range(0, len(accounts), MAX_ACCOUNT_FETCH)`): successive slices of
`n + 1` elements. -/
def chunksOf (n : Nat) : List α → List (List α)
  | [] => []
  | x :: xs => (x :: xs).take (n + 1) :: chunksOf n ((x :: xs).drop (n + 1))
  termination_by l => l.length
  decreasing_by
    simp [List.length_drop]
    omega

/-- Embeds `LiquidationService.fetch_account_details`: group the accounts by
collateral asset, fetch margin data per group in batches of
`MAX_ACCOUNT_FETCH`, and zip each group with its fetched data.  `details c i`
models the entry `SystemViewer.user_margin_data_by_collateral_asset(c, [...])`
returns for account `i`. -/
def fetch_account_details (details : Nat → Nat → UserMarginAccountData)
    (accounts : List Account) : List (Account × UserMarginAccountData) :=
  (group_by_collateral accounts).flatMap fun g =>
    g.2.zip ((chunksOf (MAX_ACCOUNT_FETCH - 1) g.2).flatMap fun batch =>
      batch.map fun item => details g.1 item.account_id)

/-- The arguments `liquidatable_accounts` passes to the
`LiquidatingAccountContext` constructor for one discovered account: the
account id, collateral asset and margin-account reference together with the
cached auction configuration `(duration, restoration buffer)`. -/
structure AccountContextSeed where
  account_id : Nat
  collateral_asset : Nat
  margin_account : Nat
  auction_duration : Int
  restoration_buffer : ℚ
deriving DecidableEq, Repr

/-- The constructor call made for one liquidatable account. -/
def seedOf (cfg : Int × ℚ) (acct : Account) : AccountContextSeed :=
  ⟨acct.account_id, acct.collateral_asset, acct.margin_account, cfg.1, cfg.2⟩

/-- Embeds `LiquidationService.liquidatable_accounts`, given the active-account list,
the margin-data oracle, and the cached auction config: skip accounts with
`mae >= mmu`, build a context seed for every other account. -/
def liquidatable_accounts (details : Nat → Nat → UserMarginAccountData)
    (cfg : Int × ℚ) (accounts : List Account) : List AccountContextSeed :=
  (fetch_account_details details accounts).filterMap fun ad =>
    if ad.2.mae ≥ ad.2.mmu then none else some (seedOf cfg ad.1)

theorem chunksOf_flatten (n : Nat) (l : List α) : (chunksOf n l).flatten = l := by
  have hgen : ∀ (k : Nat) (l : List α), l.length = k → (chunksOf n l).flatten = l := by
    intro k
    induction k using Nat.strong_induction_on with
    | _ k ih =>
      intro l hn
      cases l with
      | nil => simp [chunksOf]
      | cons x xs =>
        rw [chunksOf, List.flatten_cons]
        have hdrop : ((x :: xs).drop (n + 1)).length < k := by
          subst hn
          simp [List.length_drop]
          omega
        rw [ih _ hdrop _ rfl]
        exact List.take_append_drop (n + 1) (x :: xs)
  exact hgen l.length l rfl

theorem chunksOf_length_le (n : Nat) (l : List α) :
    ∀ b ∈ chunksOf n l, b.length ≤ n + 1 := by
  have hgen : ∀ (k : Nat) (l : List α), l.length = k →
      ∀ b ∈ chunksOf n l, b.length ≤ n + 1 := by
    intro k
    induction k using Nat.strong_induction_on with
    | _ k ih =>
      intro l hn
      cases l with
      | nil => simp [chunksOf]
      | cons x xs =>
        rw [chunksOf]
        intro b hb
        rcases List.mem_cons.mp hb with rfl | hb'
        · simp
        · have hdrop : ((x :: xs).drop (n + 1)).length < k := by
            subst hn
            simp [List.length_drop]
            omega
          exact ih _ hdrop _ rfl b hb'
  exact hgen l.length l rfl

/-- The observable value of the dict built by `group_by_collateral`: keys in
first-occurrence order, each mapped to the accounts holding that collateral in
discovery order. -/
def groupsOf (accounts : List Account) : List (Nat × List Account) :=
  (collateralKeys accounts).map fun c =>
    (c, accounts.filter fun a => a.collateral_asset == c)

theorem insertKey_mem (ks : List Nat) (x c : Nat) :
    c ∈ insertKey ks x ↔ c ∈ ks ∨ c = x := by
  by_cases hx : x ∈ ks
  · simp only [insertKey, if_pos hx]
    constructor
    · exact Or.inl
    · rintro (h | rfl)
      · exact h
      · exact hx
  · simp [insertKey, hx]

theorem foldl_insertKey_mem (l : List Nat) (ks : List Nat) (c : Nat) :
    c ∈ l.foldl insertKey ks ↔ c ∈ ks ∨ c ∈ l := by
  induction l generalizing ks with
  | nil => simp
  | cons x xs ih =>
    rw [List.foldl_cons, ih, insertKey_mem]
    simp only [List.mem_cons]
    tauto

theorem foldl_insertKey_nodup (l : List Nat) (ks : List Nat) (h : ks.Nodup) :
    (l.foldl insertKey ks).Nodup := by
  induction l generalizing ks with
  | nil => exact h
  | cons x xs ih =>
    rw [List.foldl_cons]
    apply ih
    rw [insertKey]
    split_ifs with hx
    · exact h
    · exact h.append (List.nodup_singleton x) (by simp [List.disjoint_singleton, hx])

theorem collateralKeys_append_one (processed : List Account) (a : Account) :
    collateralKeys (processed ++ [a]) =
      insertKey (collateralKeys processed) a.collateral_asset := by
  rw [collateralKeys, List.map_append, List.foldl_append]
  rfl

theorem mem_collateralKeys (accounts : List Account) (c : Nat) :
    c ∈ collateralKeys accounts ↔ ∃ a ∈ accounts, a.collateral_asset = c := by
  rw [collateralKeys, foldl_insertKey_mem]
  simp [List.mem_map, eq_comm]

theorem addToGroup_groupsOf (processed : List Account) (a : Account) :
    addToGroup (groupsOf processed) a = groupsOf (processed ++ [a]) := by
  have hany : ((groupsOf processed).any fun g => g.1 == a.collateral_asset) =
      decide (a.collateral_asset ∈ collateralKeys processed) := by
    by_cases hmem : a.collateral_asset ∈ collateralKeys processed
    · have hd : decide (a.collateral_asset ∈ collateralKeys processed) = true := by
        simp [hmem]
      rw [hd, groupsOf, List.any_eq_true]
      exact ⟨(a.collateral_asset,
          processed.filter fun x => x.collateral_asset == a.collateral_asset),
        List.mem_map_of_mem _ hmem, by simp⟩
    · have hd : decide (a.collateral_asset ∈ collateralKeys processed) = false := by
        simp [hmem]
      rw [hd, groupsOf, List.any_eq_false]
      intro g hg
      obtain ⟨c, hc, rfl⟩ := List.mem_map.mp hg
      simp only [beq_iff_eq]
      exact fun hceq => hmem (hceq ▸ hc)
  by_cases hmem : a.collateral_asset ∈ collateralKeys processed
  · rw [addToGroup, hany, if_pos (by simp [hmem])]
    rw [groupsOf, groupsOf, collateralKeys_append_one, insertKey, if_pos hmem,
      List.map_map]
    apply List.map_congr_left
    intro c _
    simp only [Function.comp]
    by_cases hc : c = a.collateral_asset
    · subst hc
      simp [List.filter_append, List.filter_cons]
    · rw [if_neg hc]
      simp only [List.filter_append, List.filter_cons, List.filter_nil]
      rw [if_neg (by simpa using fun h => hc h.symm)]
      simp
  · rw [addToGroup, hany, if_neg (by simp [hmem])]
    rw [groupsOf, groupsOf, collateralKeys_append_one, insertKey, if_neg hmem,
      List.map_append]
    congr 1
    · apply List.map_congr_left
      intro c hc
      have hne : c ≠ a.collateral_asset := fun h => hmem (h ▸ hc)
      simp only [List.filter_append, List.filter_cons, List.filter_nil]
      rw [if_neg (by simpa using fun h => hne h.symm)]
      simp
    · have hfilter : (processed.filter fun x => x.collateral_asset == a.collateral_asset)
          = [] := by
        rw [List.filter_eq_nil_iff]
        intro b hb
        simp only [beq_iff_eq]
        intro hbc
        exact hmem ((mem_collateralKeys processed a.collateral_asset).mpr ⟨b, hb, hbc⟩)
      simp [List.filter_append, List.filter_cons, hfilter]

theorem group_by_collateral_eq (accounts : List Account) :
    group_by_collateral accounts = groupsOf accounts := by
  suffices h : ∀ (rest processed : List Account),
      rest.foldl addToGroup (groupsOf processed) = groupsOf (processed ++ rest) by
    have h0 := h accounts []
    simpa [group_by_collateral, groupsOf, collateralKeys] using h0
  intro rest
  induction rest with
  | nil => intro processed; simp
  | cons a rest ih =>
    intro processed
    rw [List.foldl_cons, addToGroup_groupsOf, ih]
    simp

theorem flatMap_congr {α β : Type} (l : List α) (f g : α → List β)
    (h : ∀ a ∈ l, f a = g a) : l.flatMap f = l.flatMap g := by
  rw [List.flatMap, List.flatMap, List.map_congr_left h]

theorem flatMap_map {α β γ : Type} (l : List α) (h : α → List β) (f : β → γ) :
    (l.flatMap fun a => (h a).map f) = (l.flatMap h).map f := by
  induction l with
  | nil => rfl
  | cons x xs ih => simp [List.flatMap_cons, ih]

theorem keys_flatMap_filter_perm (ks : List Nat) (l : List Account)
    (hnd : ks.Nodup) (hmem : ∀ a ∈ l, a.collateral_asset ∈ ks) :
    (ks.flatMap fun c => l.filter fun a => a.collateral_asset == c).Perm l := by
  induction ks generalizing l with
  | nil =>
    have : l = [] := List.eq_nil_iff_forall_not_mem.mpr fun a ha => by
      simpa using hmem a ha
    simp [this]
  | cons k ks ih =>
    rw [List.flatMap_cons]
    have hknotin : k ∉ ks := (List.nodup_cons.mp hnd).1
    have hnd' : ks.Nodup := (List.nodup_cons.mp hnd).2
    have hcongr : ∀ c ∈ ks,
        (l.filter fun a => a.collateral_asset == c) =
          ((l.filter fun a => !(a.collateral_asset == k)).filter
            fun a => a.collateral_asset == c) := by
      intro c hc
      have hck : c ≠ k := fun h => hknotin (h ▸ hc)
      rw [List.filter_filter]
      apply List.filter_congr
      intro a _
      by_cases hac : a.collateral_asset = c
      · simp [hac, hck]
      · simp [hac]
    have hmem' : ∀ a ∈ (l.filter fun a => !(a.collateral_asset == k)),
        a.collateral_asset ∈ ks := by
      intro a ha
      have h1 := List.mem_of_mem_filter ha
      have h2 := List.of_mem_filter ha
      simp only [Bool.not_eq_eq_eq_not, Bool.not_true, beq_eq_false_iff_ne] at h2
      rcases List.mem_cons.mp (hmem a h1) with h | h
      · exact absurd h h2
      · exact h
    rw [flatMap_congr _ _ _ hcongr]
    exact ((ih _ hnd' hmem').append_left _).trans
      (List.filter_append_perm (fun a => a.collateral_asset == k) l)

theorem flattenGroups_perm (accounts : List Account) :
    ((group_by_collateral accounts).flatMap fun g => g.2).Perm accounts := by
  rw [group_by_collateral_eq]
  have hrw : ((groupsOf accounts).flatMap fun g => g.2) =
      (collateralKeys accounts).flatMap fun c =>
        accounts.filter fun a => a.collateral_asset == c := by
    rw [groupsOf, List.flatMap, List.map_map, List.flatMap]
    rfl
  rw [hrw]
  apply keys_flatMap_filter_perm
  · exact foldl_insertKey_nodup _ [] List.nodup_nil
  · intro a ha
    exact (mem_collateralKeys accounts a.collateral_asset).mpr ⟨a, ha, rfl⟩

theorem chunksOf_flatMap_map {α β : Type} (n : Nat) (l : List α) (f : α → β) :
    ((chunksOf n l).flatMap fun batch => batch.map f) = l.map f := by
  rw [List.flatMap, ← List.map_flatten, chunksOf_flatten]

theorem fetch_account_details_eq (details : Nat → Nat → UserMarginAccountData)
    (accounts : List Account) :
    fetch_account_details details accounts =
      ((group_by_collateral accounts).flatMap fun g => g.2).map
        fun a => (a, details a.collateral_asset a.account_id) := by
  have hinv : ∀ g ∈ group_by_collateral accounts, ∀ a ∈ g.2,
      a.collateral_asset = g.1 := by
    rw [group_by_collateral_eq]
    intro g hg a ha
    obtain ⟨c, _, rfl⟩ := List.mem_map.mp hg
    simpa using List.of_mem_filter ha
  rw [fetch_account_details, ← flatMap_map]
  apply flatMap_congr
  intro g hg
  rw [chunksOf_flatMap_map,
    FullLiquidationPercentMAEStrategy.zip_map_self
      (fun item => details g.1 item.account_id) g.2]
  apply List.map_congr_left
  intro a ha
  rw [hinv g hg a ha]

theorem liquidatable_accounts_eq (details : Nat → Nat → UserMarginAccountData)
    (cfg : Int × ℚ) (accounts : List Account) :
    liquidatable_accounts details cfg accounts =
      ((group_by_collateral accounts).flatMap fun g => g.2).filterMap fun a =>
        if (details a.collateral_asset a.account_id).mae ≥
            (details a.collateral_asset a.account_id).mmu then none
        else some (seedOf cfg a) := by
  rw [liquidatable_accounts, fetch_account_details_eq, List.filterMap_map]
  rfl

theorem filterMap_seed_eq (details : Nat → Nat → UserMarginAccountData)
    (cfg : Int × ℚ) (l : List Account) :
    (l.filterMap fun a =>
      if (details a.collateral_asset a.account_id).mae ≥
          (details a.collateral_asset a.account_id).mmu then none
      else some (seedOf cfg a)) =
    (l.filter fun a => (details a.collateral_asset a.account_id).mae <
      (details a.collateral_asset a.account_id).mmu).map (seedOf cfg) := by
  induction l with
  | nil => rfl
  | cons a rest ih =>
    rw [List.filterMap_cons, List.filter_cons]
    by_cases h : (details a.collateral_asset a.account_id).mae <
        (details a.collateral_asset a.account_id).mmu
    · rw [if_neg (not_le.mpr h)]
      simp [h, ih]
    · rw [if_pos (not_lt.mp h)]
      simp [h, ih]

theorem foldl_insertKey_const (c : Nat) (l : List Nat) (h : ∀ x ∈ l, x = c) :
    l.foldl insertKey [c] = [c] := by
  induction l with
  | nil => rfl
  | cons x xs ih =>
    have hx : x = c := h x (List.mem_cons_self x xs)
    rw [List.foldl_cons, hx, insertKey, if_pos (by simp)]
    exact ih fun y hy => h y (List.mem_cons_of_mem x hy)

theorem collateralKeys_uniform (c : Nat) (accounts : List Account)
    (h : ∀ a ∈ accounts, a.collateral_asset = c) (hne : accounts ≠ []) :
    collateralKeys accounts = [c] := by
  cases accounts with
  | nil => exact absurd rfl hne
  | cons a rest =>
    rw [collateralKeys, List.map_cons, List.foldl_cons]
    have ha : a.collateral_asset = c := h a (List.mem_cons_self a rest)
    have hins : insertKey [] a.collateral_asset = [c] := by
      rw [ha, insertKey, if_neg (List.not_mem_nil c)]
      rfl
    rw [hins]
    apply foldl_insertKey_const
    intro x hx
    obtain ⟨b, hb, rfl⟩ := List.mem_map.mp hx
    exact h b (List.mem_cons_of_mem a hb)

theorem flattenGroups_uniform (c : Nat) (accounts : List Account)
    (h : ∀ a ∈ accounts, a.collateral_asset = c) :
    ((group_by_collateral accounts).flatMap fun g => g.2) = accounts := by
  rcases hacc : accounts with _ | ⟨a, rest⟩
  · rfl
  · rw [← hacc, group_by_collateral_eq, groupsOf,
      collateralKeys_uniform c accounts h (by rw [hacc]; simp)]
    simp only [List.map_cons, List.map_nil, List.flatMap_cons, List.flatMap_nil,
      List.append_nil]
    rw [List.filter_eq_self.mpr]
    intro b hb
    simp [h b hb]

/-- C9 counterexample: with three active accounts over two collateral assets,
interleaved as `[c1, c2, c1]`, and every account liquidatable
(`mae = 0 < 1 = mmu`), `liquidatable_accounts` returns the contexts in
collateral-grouped order (ids `[0, 2, 1]`), not in discovery order
(ids `[0, 1, 2]`). -/
theorem C9_discovery_order_counterexample :
    liquidatable_accounts (fun _ _ => ⟨0, 1⟩) (100, 0)
        [⟨0, 5, 1⟩, ⟨1, 5, 2⟩, ⟨2, 5, 1⟩] =
      [seedOf (100, 0) ⟨0, 5, 1⟩, seedOf (100, 0) ⟨2, 5, 1⟩,
        seedOf (100, 0) ⟨1, 5, 2⟩] ∧
    liquidatable_accounts (fun _ _ => ⟨0, 1⟩) (100, 0)
        [⟨0, 5, 1⟩, ⟨1, 5, 2⟩, ⟨2, 5, 1⟩] ≠
      [⟨0, 5, 1⟩, ⟨1, 5, 2⟩, ⟨2, 5, 1⟩].map (seedOf (100, 0)) := by
  have h1 : liquidatable_accounts (fun _ _ => ⟨0, 1⟩) (100, 0)
      [⟨0, 5, 1⟩, ⟨1, 5, 2⟩, ⟨2, 5, 1⟩] =
    [seedOf (100, 0) ⟨0, 5, 1⟩, seedOf (100, 0) ⟨2, 5, 1⟩,
      seedOf (100, 0) ⟨1, 5, 2⟩] := by
    rw [liquidatable_accounts_eq]
    rfl
  refine ⟨h1, ?_⟩
  intro heq
  rw [h1] at heq
  have hids := congrArg (List.map fun s => s.account_id) heq
  simp only [List.map_cons, List.map_nil, seedOf] at hids
  exact absurd hids (by decide)

/-- C9 (amended): `liquidatable_accounts` returns a context seed exactly for
the active accounts with `mae < mmu`, each carrying the account's collateral
asset and margin-account reference and the cached auction configuration — but
in collateral-grouped order (groups in order of first occurrence of a
collateral asset, accounts within a group in discovery order), which is the
discovery order whenever all accounts share one collateral asset (as in the
spec's N/2 fixture); margin-data lookups are grouped by collateral asset and
batched in slices of at most `MAX_ACCOUNT_FETCH = 50` accounts that exactly
cover each group. -/
theorem C9_liquidatable_accounts_grouped (details : Nat → Nat → UserMarginAccountData)
    (cfg : Int × ℚ) (accounts : List Account) :
    (liquidatable_accounts details cfg accounts =
      ((group_by_collateral accounts).flatMap fun g => g.2).filterMap fun a =>
        if (details a.collateral_asset a.account_id).mae ≥
            (details a.collateral_asset a.account_id).mmu then none
        else some (seedOf cfg a)) ∧
    (liquidatable_accounts details cfg accounts).Perm
      ((accounts.filter fun a => (details a.collateral_asset a.account_id).mae <
          (details a.collateral_asset a.account_id).mmu).map (seedOf cfg)) ∧
    (∀ c, (∀ a ∈ accounts, a.collateral_asset = c) →
      liquidatable_accounts details cfg accounts =
        (accounts.filter fun a => (details a.collateral_asset a.account_id).mae <
          (details a.collateral_asset a.account_id).mmu).map (seedOf cfg)) ∧
    (∀ g ∈ group_by_collateral accounts,
      (chunksOf (MAX_ACCOUNT_FETCH - 1) g.2).flatten = g.2 ∧
      ∀ b ∈ chunksOf (MAX_ACCOUNT_FETCH - 1) g.2, b.length ≤ MAX_ACCOUNT_FETCH) := by
  refine ⟨liquidatable_accounts_eq details cfg accounts, ?_, ?_, ?_⟩
  · rw [liquidatable_accounts_eq, ← filterMap_seed_eq]
    exact (flattenGroups_perm accounts).filterMap _
  · intro c hc
    rw [liquidatable_accounts_eq, flattenGroups_uniform c accounts hc,
      filterMap_seed_eq]
  · intro g _
    exact ⟨chunksOf_flatten _ g.2, fun b hb => chunksOf_length_le _ g.2 b hb⟩

/-- Witness for the amended C9 at the spec's fixture shape: four active
accounts sharing one collateral asset, the first two liquidatable
(`mae = 0 < 1 = mmu`), the rest not (`mae = 1 ≥ 0 = mmu`):
exactly the first two context seeds are returned, in discovery order. -/
theorem C9_liquidatable_accounts_grouped_witness :
    liquidatable_accounts (fun _ i => if i < 2 then ⟨0, 1⟩ else ⟨1, 0⟩) (100, 0)
        [⟨0, 5, 7⟩, ⟨1, 5, 7⟩, ⟨2, 5, 7⟩, ⟨3, 5, 7⟩] =
      [seedOf (100, 0) ⟨0, 5, 7⟩, seedOf (100, 0) ⟨1, 5, 7⟩] := by
  have h := (C9_liquidatable_accounts_grouped
    (fun _ i => if i < 2 then ⟨0, 1⟩ else ⟨1, 0⟩) (100, 0)
    [⟨0, 5, 7⟩, ⟨1, 5, 7⟩, ⟨2, 5, 7⟩, ⟨3, 5, 7⟩]).2.2.1 7
    (by intro a ha; fin_cases ha <;> rfl)
  rw [h]
  rfl
